import Mathlib

/-!
Shallow embedding of the training core of `train.py` from the fast-style-transfer
repository. Tensors are rank-4 arrays of rationals indexed by
(batch, height, width, channel); `tf.reduce_mean` becomes a sum over index
ranges divided by the element count; dictionary lookups become association-list
lookups returning `Option`; fallible TensorFlow operations (missing dictionary
key, `tf.add_n` on an empty list) return `Option`.
-/

namespace FastStyleTransfer

/-- Rank-4 tensor of rationals: shape (b, h, w, c) with entries given by `pix`.
Entries outside the index ranges are irrelevant to every operation. -/
structure Tensor4 where
  b : ℕ
  h : ℕ
  w : ℕ
  c : ℕ
  pix : ℕ → ℕ → ℕ → ℕ → ℚ

/-- Sum of `f i` for `i` ranging over `0, ..., n-1`. -/
def sumR (n : ℕ) (f : ℕ → ℚ) : ℚ :=
  ((List.range n).map f).sum

/-- Sum of all in-range entries of a tensor. -/
def sum4 (t : Tensor4) : ℚ :=
  sumR t.b fun i => sumR t.h fun j => sumR t.w fun k => sumR t.c fun l => t.pix i j k l

/-- Number of entries of a tensor. -/
def numElements (t : Tensor4) : ℕ :=
  t.b * t.h * t.w * t.c

/-- Embedding of `tf.reduce_mean`: sum of entries divided by element count. -/
def reduce_mean (t : Tensor4) : ℚ :=
  sum4 t / (numElements t : ℚ)

/-- Elementwise square, the embedding of `x ** 2` on a tensor. -/
def square (t : Tensor4) : Tensor4 :=
  { t with pix := fun i j k l => (t.pix i j k l) ^ 2 }

/-- Elementwise subtraction of same-shape tensors (shape taken from the left). -/
def tsub (x y : Tensor4) : Tensor4 :=
  ⟨x.b, x.h, x.w, x.c, fun i j k l => x.pix i j k l - y.pix i j k l⟩

/-- Embedding of `high_pass_x_y` (train.py lines 48-52):
`x_var = image[:, :, 1:, :] - image[:, :, :-1, :]` and
`y_var = image[:, 1:, :, :] - image[:, :-1, :, :]`. -/
def high_pass_x_y (image : Tensor4) : Tensor4 × Tensor4 :=
  (⟨image.b, image.h, image.w - 1, image.c,
      fun i j k l => image.pix i j (k + 1) l - image.pix i j k l⟩,
   ⟨image.b, image.h - 1, image.w, image.c,
      fun i j k l => image.pix i (j + 1) k l - image.pix i j k l⟩)

/-- Embedding of `total_variation_loss` (train.py lines 55-57):
`tf.reduce_mean(x_deltas ** 2) + tf.reduce_mean(y_deltas ** 2)`. -/
def total_variation_loss (image : Tensor4) : ℚ :=
  reduce_mean (square (high_pass_x_y image).1) + reduce_mean (square (high_pass_x_y image).2)

/-- An image is spatially constant when its pixels agree along height and width
(within each batch element and channel). -/
def SpatiallyConstant (t : Tensor4) : Prop :=
  ∀ i j k l j' k', t.pix i j k l = t.pix i j' k' l

/-- Adding the scalar `q` uniformly to every pixel. -/
def addConst (q : ℚ) (t : Tensor4) : Tensor4 :=
  { t with pix := fun i j k l => t.pix i j k l + q }

section SumLemmas

theorem sumR_eq_finset (n : ℕ) (f : ℕ → ℚ) :
    sumR n f = ∑ i in Finset.range n, f i := by
  induction n with
  | zero => simp [sumR]
  | succ m ih =>
      simp [sumR, List.range_succ, Finset.sum_range_succ] at ih ⊢
      simpa [sumR] using ih

theorem sumR_nonneg (n : ℕ) (f : ℕ → ℚ) (hf : ∀ i, 0 ≤ f i) : 0 ≤ sumR n f := by
  rw [sumR_eq_finset]
  exact Finset.sum_nonneg fun i _ => hf i

theorem sumR_congr (n : ℕ) (f g : ℕ → ℚ) (h : ∀ i, f i = g i) : sumR n f = sumR n g := by
  rw [sumR_eq_finset, sumR_eq_finset]
  exact Finset.sum_congr rfl fun i _ => h i

theorem sumR_zero_fun (n : ℕ) : sumR n (fun _ => (0 : ℚ)) = 0 := by
  rw [sumR_eq_finset]; simp

theorem sum4_nonneg_of_pix (t : Tensor4) (h : ∀ i j k l, 0 ≤ t.pix i j k l) :
    0 ≤ sum4 t := by
  refine sumR_nonneg _ _ fun i => ?_
  refine sumR_nonneg _ _ fun j => ?_
  refine sumR_nonneg _ _ fun k => ?_
  exact sumR_nonneg _ _ fun l => h i j k l

theorem sum4_zero_of_pix (t : Tensor4) (h : ∀ i j k l, t.pix i j k l = 0) :
    sum4 t = 0 := by
  unfold sum4
  calc sumR t.b (fun i => sumR t.h fun j => sumR t.w fun k => sumR t.c fun l => t.pix i j k l)
      = sumR t.b (fun _ => (0 : ℚ)) := by
        refine sumR_congr _ _ _ fun i => ?_
        calc sumR t.h (fun j => sumR t.w fun k => sumR t.c fun l => t.pix i j k l)
            = sumR t.h (fun _ => (0 : ℚ)) := by
              refine sumR_congr _ _ _ fun j => ?_
              calc sumR t.w (fun k => sumR t.c fun l => t.pix i j k l)
                  = sumR t.w (fun _ => (0 : ℚ)) := by
                    refine sumR_congr _ _ _ fun k => ?_
                    calc sumR t.c (fun l => t.pix i j k l)
                        = sumR t.c (fun _ => (0 : ℚ)) :=
                          sumR_congr _ _ _ fun l => h i j k l
                      _ = 0 := sumR_zero_fun _
                _ = 0 := sumR_zero_fun _
          _ = 0 := sumR_zero_fun _
    _ = 0 := sumR_zero_fun _

theorem reduce_mean_nonneg_of_pix (t : Tensor4) (h : ∀ i j k l, 0 ≤ t.pix i j k l) :
    0 ≤ reduce_mean t :=
  div_nonneg (sum4_nonneg_of_pix t h) (by positivity)

theorem reduce_mean_zero_of_pix (t : Tensor4) (h : ∀ i j k l, t.pix i j k l = 0) :
    reduce_mean t = 0 := by
  unfold reduce_mean
  rw [sum4_zero_of_pix t h, zero_div]

end SumLemmas

/-- Claim C4: for every image tensor, `total_variation_loss` is non-negative, and
it is exactly 0 for every spatially-constant image. -/
theorem tv_nonneg_and_const_zero (image : Tensor4) :
    0 ≤ total_variation_loss image ∧
      (SpatiallyConstant image → total_variation_loss image = 0) := by
  constructor
  · have hx : 0 ≤ reduce_mean (square (high_pass_x_y image).1) :=
      reduce_mean_nonneg_of_pix _ fun i j k l => by
        simp only [square, high_pass_x_y]
        positivity
    have hy : 0 ≤ reduce_mean (square (high_pass_x_y image).2) :=
      reduce_mean_nonneg_of_pix _ fun i j k l => by
        simp only [square, high_pass_x_y]
        positivity
    exact add_nonneg hx hy
  · intro hconst
    have hx : reduce_mean (square (high_pass_x_y image).1) = 0 :=
      reduce_mean_zero_of_pix _ fun i j k l => by
        simp only [square, high_pass_x_y]
        rw [hconst i j (k + 1) l j k]
        ring
    have hy : reduce_mean (square (high_pass_x_y image).2) = 0 :=
      reduce_mean_zero_of_pix _ fun i j k l => by
        simp only [square, high_pass_x_y]
        rw [hconst i (j + 1) k l j k]
        ring
    unfold total_variation_loss
    rw [hx, hy, add_zero]

/-- Constant test image used to witness the spatially-constant case. -/
def constImage : Tensor4 :=
  ⟨1, 2, 2, 3, fun _ _ _ _ => 5⟩

/-- Witness for C4: the constant 1x2x2x3 image has non-negative total-variation
loss, and that loss is exactly 0. -/
theorem tv_nonneg_and_const_zero_witness :
    0 ≤ total_variation_loss constImage ∧ total_variation_loss constImage = 0 :=
  ⟨(tv_nonneg_and_const_zero constImage).1,
   (tv_nonneg_and_const_zero constImage).2 fun _ _ _ _ _ _ => rfl⟩

/-- Claim C9: adding a scalar uniformly to every pixel leaves
`total_variation_loss` unchanged (translation invariance). -/
theorem tv_translation_invariant (image : Tensor4) (q : ℚ) :
    total_variation_loss (addConst q image) = total_variation_loss image := by
  unfold total_variation_loss
  have hx : sum4 (square (high_pass_x_y (addConst q image)).1)
      = sum4 (square (high_pass_x_y image).1) := by
    unfold sum4
    refine sumR_congr _ _ _ fun i => ?_
    refine sumR_congr _ _ _ fun j => ?_
    refine sumR_congr _ _ _ fun k => ?_
    refine sumR_congr _ _ _ fun l => ?_
    simp only [square, high_pass_x_y, addConst]
    ring
  have hy : sum4 (square (high_pass_x_y (addConst q image)).2)
      = sum4 (square (high_pass_x_y image).2) := by
    unfold sum4
    refine sumR_congr _ _ _ fun i => ?_
    refine sumR_congr _ _ _ fun j => ?_
    refine sumR_congr _ _ _ fun k => ?_
    refine sumR_congr _ _ _ fun l => ?_
    simp only [square, high_pass_x_y, addConst]
    ring
  unfold reduce_mean numElements
  simp only [square, high_pass_x_y, addConst] at hx hy ⊢
  rw [hx, hy]

/-! Feature bundles and `style_content_loss` (train.py lines 22-45). A Python
dictionary of layer activations becomes an association list; `d[name]` becomes
`List.lookup`, failing (KeyError) as `none`; `tf.add_n` fails on an empty list. -/

/-- A mapping from layer names to activation tensors. -/
abbrev LayerMap := List (String × Tensor4)

/-- The list of layer names of a layer map, in iteration order. -/
def layerKeys (m : LayerMap) : List String :=
  m.map Prod.fst

/-- A bundle of named style-layer and content-layer activations, as produced by
the feature extractor. -/
structure FeatureBundle where
  style : LayerMap
  content : LayerMap

/-- Embedding of `tf.add_n`: sums a list of scalars, failing on the empty list
exactly as `tf.add_n([])` raises. -/
def add_n : List ℚ → Option ℚ
  | [] => none
  | x :: xs => some (x :: xs).sum

/-- The style terms of `style_content_loss` (lines 27-34): for each name in
`transformed_style_outputs.keys()`, the mean squared difference against
`style_targets[name]`; a name absent from `style_targets` is a KeyError. -/
def styleTermList (style_targets : LayerMap) : LayerMap → Option (List ℚ)
  | [] => some []
  | (name, t) :: rest =>
    match style_targets.lookup name with
    | none => none
    | some target =>
      match styleTermList style_targets rest with
      | none => none
      | some r => some (reduce_mean (square (tsub t target)) :: r)

/-- The content terms of `style_content_loss` (lines 36-44): for each name in
`content_outputs.keys()`, the mean squared difference between
`transformed_content_outputs[name]` and the original content activation. -/
def contentTermList (transformed_content : LayerMap) : LayerMap → Option (List ℚ)
  | [] => some []
  | (name, t) :: rest =>
    match transformed_content.lookup name with
    | none => none
    | some tc =>
      match contentTermList transformed_content rest with
      | none => none
      | some r => some (reduce_mean (square (tsub tc t)) :: r)

/-- The style-loss part of `style_content_loss`: `tf.add_n` over the style terms. -/
def style_loss_of (style_targets styles : LayerMap) : Option ℚ :=
  (styleTermList style_targets styles).bind add_n

/-- The content-loss part of `style_content_loss`: `tf.add_n` over the content terms. -/
def content_loss_of (transformed_content content : LayerMap) : Option ℚ :=
  (contentTermList transformed_content content).bind add_n

/-- Embedding of `style_content_loss(outputs, transformed_outputs)` with the
module-level `style_targets` passed explicitly; returns
`(style_loss, content_loss)`. -/
def style_content_loss (style_targets : LayerMap) (outputs transformed_outputs : FeatureBundle) :
    Option (ℚ × ℚ) :=
  match style_loss_of style_targets transformed_outputs.style with
  | none => none
  | some style_loss =>
    match content_loss_of transformed_outputs.content outputs.content with
    | none => none
    | some content_loss => some (style_loss, content_loss)

section LookupLemmas

theorem lookup_eq_of_nodup (m : LayerMap) (name : String) (t : Tensor4)
    (hnd : (layerKeys m).Nodup) (hmem : (name, t) ∈ m) :
    m.lookup name = some t := by
  induction m with
  | nil => cases hmem
  | cons p rest ih =>
      obtain ⟨k, v⟩ := p
      have hk : k ∉ layerKeys rest ∧ (layerKeys rest).Nodup := by
        simpa [layerKeys] using hnd
      rcases List.mem_cons.mp hmem with hEq | hmem2
      · injection hEq with h1 h2
        subst h1
        subst h2
        simp [List.lookup]
      · have hnameMem : name ∈ layerKeys rest := by
          simpa [layerKeys] using List.mem_map_of_mem Prod.fst hmem2
        have hne : name ≠ k := fun h => hk.1 (h ▸ hnameMem)
        have hbeq : (name == k) = false := beq_eq_false_iff_ne.mpr hne
        simpa [List.lookup, hbeq] using ih hk.2 hmem2

theorem layerKeys_cons (p : String × Tensor4) (rest : LayerMap) :
    layerKeys (p :: rest) = p.1 :: layerKeys rest := rfl

theorem lookup_isSome_iff_mem (m : LayerMap) (name : String) :
    (m.lookup name).isSome ↔ name ∈ layerKeys m := by
  induction m with
  | nil => simp [List.lookup, layerKeys]
  | cons p rest ih =>
      obtain ⟨k, v⟩ := p
      by_cases hEq : name = k
      · subst hEq
        simp [List.lookup, layerKeys]
      · have hbeq : (name == k) = false := beq_eq_false_iff_ne.mpr hEq
        have hstep : ((k, v) :: rest).lookup name = rest.lookup name := by
          simp [List.lookup, hbeq]
        rw [hstep, ih]
        simp [layerKeys, hEq]

end LookupLemmas

section TermListLemmas

theorem mse_self (t : Tensor4) : reduce_mean (square (tsub t t)) = 0 :=
  reduce_mean_zero_of_pix _ fun i j k l => by
    simp [square, tsub]

theorem styleTermList_self (full : LayerMap) (l : LayerMap)
    (hnd : (layerKeys full).Nodup) (hsub : ∀ p ∈ l, p ∈ full) :
    styleTermList full l = some (l.map fun _ => (0 : ℚ)) := by
  induction l with
  | nil => rfl
  | cons p rest ih =>
      obtain ⟨name, t⟩ := p
      have hl : full.lookup name = some t :=
        lookup_eq_of_nodup full name t hnd (hsub _ (List.mem_cons_self _ _))
      have hr : styleTermList full rest = some (rest.map fun _ => (0 : ℚ)) :=
        ih fun q hq => hsub q (List.mem_cons_of_mem _ hq)
      simp [styleTermList, hl, hr, mse_self]

theorem contentTermList_self (full : LayerMap) (l : LayerMap)
    (hnd : (layerKeys full).Nodup) (hsub : ∀ p ∈ l, p ∈ full) :
    contentTermList full l = some (l.map fun _ => (0 : ℚ)) := by
  induction l with
  | nil => rfl
  | cons p rest ih =>
      obtain ⟨name, t⟩ := p
      have hl : full.lookup name = some t :=
        lookup_eq_of_nodup full name t hnd (hsub _ (List.mem_cons_self _ _))
      have hr : contentTermList full rest = some (rest.map fun _ => (0 : ℚ)) :=
        ih fun q hq => hsub q (List.mem_cons_of_mem _ hq)
      simp [contentTermList, hl, hr, mse_self]

theorem add_n_isSome (l : List ℚ) : (add_n l).isSome ↔ l ≠ [] := by
  cases l <;> simp [add_n]

theorem add_n_map_zero (l : LayerMap) (h : l ≠ []) :
    add_n (l.map fun _ => (0 : ℚ)) = some 0 := by
  cases l with
  | nil => exact absurd rfl h
  | cons p ps =>
      have hsum : ((p :: ps).map fun _ => (0 : ℚ)).sum = 0 := by
        refine List.sum_eq_zero ?_
        intro x hx
        rcases List.mem_map.mp hx with ⟨a, _, ha⟩
        exact ha.symm
      simp only [List.map_cons, add_n] at hsum ⊢
      rw [hsum]

theorem styleTermList_isSome (tgts styles : LayerMap) :
    (styleTermList tgts styles).isSome ↔ ∀ n ∈ layerKeys styles, n ∈ layerKeys tgts := by
  induction styles with
  | nil => simp [styleTermList, layerKeys]
  | cons p rest ih =>
      obtain ⟨name, t⟩ := p
      cases hl : tgts.lookup name with
      | none =>
          have hnmem : name ∉ layerKeys tgts := by
            intro hmem
            have := (lookup_isSome_iff_mem tgts name).mpr hmem
            rw [hl] at this
            cases this
          simp only [styleTermList, hl, Option.isSome_none, Bool.false_eq_true, false_iff]
          intro hall
          exact hnmem (hall name (by rw [layerKeys_cons]; exact List.mem_cons_self _ _))
      | some target =>
          have hmem : name ∈ layerKeys tgts := by
            refine (lookup_isSome_iff_mem tgts name).mp ?_
            rw [hl]
            rfl
          cases hr : styleTermList tgts rest with
          | none =>
              simp only [styleTermList, hl, hr, Option.isSome_none, Bool.false_eq_true,
                false_iff]
              intro hall
              have hrestAll : ∀ n ∈ layerKeys rest, n ∈ layerKeys tgts := by
                intro n hn
                exact hall n (by rw [layerKeys_cons]; exact List.mem_cons_of_mem _ hn)
              have hiss := ih.mpr hrestAll
              rw [hr] at hiss
              cases hiss
          | some r =>
              have hrestAll : ∀ n ∈ layerKeys rest, n ∈ layerKeys tgts :=
                ih.mp (by rw [hr]; rfl)
              simp only [styleTermList, hl, hr, Option.isSome_some, true_iff, layerKeys_cons,
                List.mem_cons]
              rintro n (rfl | hn)
              · exact hmem
              · exact hrestAll n hn

theorem styleTermList_length (tgts styles : LayerMap) (l : List ℚ)
    (h : styleTermList tgts styles = some l) : l.length = styles.length := by
  induction styles generalizing l with
  | nil =>
      simp only [styleTermList] at h
      cases h
      rfl
  | cons p rest ih =>
      obtain ⟨name, t⟩ := p
      cases hl : tgts.lookup name with
      | none => rw [styleTermList, hl] at h; cases h
      | some target =>
          cases hr : styleTermList tgts rest with
          | none => rw [styleTermList, hl, hr] at h; cases h
          | some r =>
              rw [styleTermList, hl, hr] at h
              cases h
              simp [ih r hr]

end TermListLemmas

/-- Claim C5 (amended): the style-loss computation succeeds exactly when the
transformed style map is non-empty and every one of its layer names is present
in the precomputed style targets; extra names on the target side are ignored,
not errors. -/
theorem style_loss_succeeds_iff (tgts styles : LayerMap) :
    (style_loss_of tgts styles).isSome ↔
      (styles ≠ [] ∧ ∀ n ∈ layerKeys styles, n ∈ layerKeys tgts) := by
  unfold style_loss_of
  cases hterms : styleTermList tgts styles with
  | none =>
      have hnot : ¬ ∀ n ∈ layerKeys styles, n ∈ layerKeys tgts := by
        intro hall
        have := (styleTermList_isSome tgts styles).mpr hall
        rw [hterms] at this
        cases this
      simp [hnot]
  | some l =>
      have hall : ∀ n ∈ layerKeys styles, n ∈ layerKeys tgts := by
        refine (styleTermList_isSome tgts styles).mp ?_
        rw [hterms]
        rfl
      have hlen := styleTermList_length tgts styles l hterms
      constructor
      · intro hsome
        refine ⟨?_, hall⟩
        intro hnil
        subst hnil
        have : l = [] := List.length_eq_zero.mp (by simpa using hlen)
        subst this
        simp [add_n] at hsome
      · rintro ⟨hne, -⟩
        have hlne : l ≠ [] := by
          intro hnil
          subst hnil
          exact hne (List.length_eq_zero.mp (by simpa using hlen.symm))
        simpa [add_n_isSome] using hlne

/-- Concrete 1x1x1x1 tensor with every entry 1. -/
def oneT : Tensor4 := ⟨1, 1, 1, 1, fun _ _ _ _ => 1⟩

/-- Concrete 1x1x1x1 tensor with every entry 0. -/
def zeroT : Tensor4 := ⟨1, 1, 1, 1, fun _ _ _ _ => 0⟩

/-- Style targets with an extra layer name that the transformed outputs lack. -/
def mismatchTargets : LayerMap := [("a", oneT), ("b", zeroT)]

/-- Transformed style outputs holding only layer a. -/
def mismatchStyles : LayerMap := [("a", oneT)]

/-- Counterexample to C5 as stated: the key sets differ (layer b is a style
target but not a transformed output), yet the style-loss computation succeeds. -/
theorem style_key_mismatch_no_failure :
    ("b" ∈ layerKeys mismatchTargets ∧ "b" ∉ layerKeys mismatchStyles) ∧
      style_loss_of mismatchTargets mismatchStyles = some 0 := by
  constructor
  · constructor
    · decide
    · decide
  · simp [style_loss_of, styleTermList, mismatchTargets, mismatchStyles, List.lookup,
      add_n, reduce_mean, sum4, sumR, square, tsub, numElements, oneT, List.range_succ]

/-- Claim C1 (amended): with identical `outputs` and `transformed_outputs`, the
content loss is 0; the style loss, however, compares the transformed style
activations against the precomputed style targets, so it is 0 when those
coincide with the targets, not regardless of image content. -/
theorem identical_bundles_losses (tgts : LayerMap) (b : FeatureBundle)
    (hndc : (layerKeys b.content).Nodup) (hnds : (layerKeys b.style).Nodup)
    (sl cl : ℚ) (h : style_content_loss tgts b b = some (sl, cl)) :
    cl = 0 ∧ (b.style = tgts → sl = 0) := by
  have hcterms : contentTermList b.content b.content
      = some (b.content.map fun _ => (0 : ℚ)) :=
    contentTermList_self b.content b.content hndc fun p hp => hp
  cases hs : style_loss_of tgts b.style with
  | none =>
      unfold style_content_loss at h
      rw [hs] at h
      cases h
  | some sl0 =>
      cases hc : content_loss_of b.content b.content with
      | none =>
          unfold style_content_loss at h
          rw [hs, hc] at h
          cases h
      | some cl0 =>
          unfold style_content_loss at h
          rw [hs, hc] at h
          simp only [Option.some.injEq, Prod.mk.injEq] at h
          obtain ⟨hsl, hcl⟩ := h
          subst hsl
          subst hcl
          constructor
          · have hco : content_loss_of b.content b.content
                = add_n (b.content.map fun _ => (0 : ℚ)) := by
              rw [content_loss_of, hcterms]
              rfl
            rw [hco] at hc
            cases hbc : b.content with
            | nil =>
                rw [hbc] at hc
                simp [add_n] at hc
            | cons p ps =>
                rw [hbc, add_n_map_zero (p :: ps) (by simp)] at hc
                injection hc with hc0
                exact hc0.symm
          · intro hst
            subst hst
            have hsterms : styleTermList b.style b.style
                = some (b.style.map fun _ => (0 : ℚ)) :=
              styleTermList_self b.style b.style hnds fun p hp => hp
            have hso : style_loss_of b.style b.style
                = add_n (b.style.map fun _ => (0 : ℚ)) := by
              rw [style_loss_of, hsterms]
              rfl
            rw [hso] at hs
            cases hbs : b.style with
            | nil =>
                rw [hbs] at hs
                simp [add_n] at hs
            | cons p ps =>
                rw [hbs, add_n_map_zero (p :: ps) (by simp)] at hs
                injection hs with hs0
                exact hs0.symm

/-- Identical feature bundle whose style activation differs from the target. -/
def cexBundle : FeatureBundle := ⟨[("a", oneT)], [("c", oneT)]⟩

/-- Style targets that disagree with the style activation of `cexBundle`. -/
def cexTargets : LayerMap := [("a", zeroT)]

/-- Counterexample to C1 as stated: with identical `outputs` and
`transformed_outputs` the content loss is 0 but the style loss is 1, not 0,
because the style loss is measured against the precomputed style targets. -/
theorem identical_bundles_style_loss_nonzero :
    style_content_loss cexTargets cexBundle cexBundle = some (1, 0) ∧ (1 : ℚ) ≠ 0 := by
  constructor
  · simp [style_content_loss, style_loss_of, content_loss_of, styleTermList, contentTermList,
      cexBundle, cexTargets, List.lookup, add_n, reduce_mean, sum4, sumR, square, tsub,
      numElements, oneT, zeroT, List.range_succ]
  · norm_num

/-- Bundle whose style activations equal the style targets exactly. -/
def witBundle : FeatureBundle := ⟨[("a", oneT)], [("c", oneT)]⟩

/-- Style targets equal to the style part of `witBundle`. -/
def witBundleTargets : LayerMap := [("a", oneT)]

/-- Witness for the amended C1 at a concrete input whose style activations equal
the targets: both losses evaluate to 0. -/
theorem identical_bundles_losses_witness :
    (0 : ℚ) = 0 ∧ (witBundle.style = witBundleTargets → (0 : ℚ) = 0) :=
  identical_bundles_losses witBundleTargets witBundle (by decide) (by decide) 0 0
    (by simp [style_content_loss, style_loss_of, content_loss_of, styleTermList,
      contentTermList, witBundle, witBundleTargets, List.lookup, add_n, reduce_mean, sum4,
      sumR, square, tsub, numElements, oneT, List.range_succ])

/-! The loss computation inside `train_step` (train.py lines 124-140). The
transformer and feature extractor are the opaque collaborators of the spec,
passed as functions; the CLI weights are a record. -/

/-- The three loss weights from the CLI arguments. -/
structure Weights where
  style_weight : ℚ
  content_weight : ℚ
  tv_weight : ℚ

/-- Embedding of the loss computation of `train_step` (lines 126-140):
stylize, extract features of both images, compose and weight the losses.
Returns `(style_loss, content_loss, va_loss, loss)` after the in-place
weighting, exactly as the code leaves them for metric logging. -/
def train_step_losses (transformer : Tensor4 → Tensor4) (extractor : Tensor4 → FeatureBundle)
    (style_targets : LayerMap) (w : Weights) (num_style_layers num_content_layers : ℕ)
    (image : Tensor4) : Option (ℚ × ℚ × ℚ × ℚ) :=
  match style_content_loss style_targets (extractor image) (extractor (transformer image)) with
  | none => none
  | some (style_loss0, content_loss0) =>
    let va_loss := w.tv_weight * total_variation_loss image
    let style_loss := style_loss0 * (w.style_weight / (num_style_layers : ℚ))
    let content_loss := content_loss0 * (w.content_weight / (num_content_layers : ℚ))
    some (style_loss, content_loss, va_loss, style_loss + content_loss + va_loss)

/-- Claim C2: in every training step the total-variation term is
`tv_weight * total_variation_loss image` computed on the raw input image, and it
equals exactly the mean of squared horizontal pixel deltas plus the mean of
squared vertical pixel deltas of that raw image; the transformer output never
enters it. -/
theorem tv_term_on_raw_image (transformer : Tensor4 → Tensor4)
    (extractor : Tensor4 → FeatureBundle) (style_targets : LayerMap) (w : Weights)
    (ns nc : ℕ) (image : Tensor4) (s c v tot : ℚ)
    (h : train_step_losses transformer extractor style_targets w ns nc image
      = some (s, c, v, tot)) :
    v = w.tv_weight *
      (sum4 ⟨image.b, image.h, image.w - 1, image.c,
          fun i j k m => (image.pix i j (k + 1) m - image.pix i j k m) ^ 2⟩ /
        ((image.b * image.h * (image.w - 1) * image.c : ℕ) : ℚ) +
       sum4 ⟨image.b, image.h - 1, image.w, image.c,
          fun i j k m => (image.pix i (j + 1) k m - image.pix i j k m) ^ 2⟩ /
        ((image.b * (image.h - 1) * image.w * image.c : ℕ) : ℚ)) := by
  cases hs : style_content_loss style_targets (extractor image) (extractor (transformer image))
    with
  | none =>
      unfold train_step_losses at h
      rw [hs] at h
      cases h
  | some p =>
      obtain ⟨sl0, cl0⟩ := p
      unfold train_step_losses at h
      rw [hs] at h
      simp only [Option.some.injEq, Prod.mk.injEq] at h
      obtain ⟨-, -, hv, -⟩ := h
      rw [← hv]
      rfl

/-- Claim C3: the total loss of every training step decomposes exactly as
`style_loss0 * (style_weight / num_style_layers)
 + content_loss0 * (content_weight / num_content_layers)
 + tv_weight * total_variation_loss image`, with the unweighted component losses
and no layer-count normalization on the total-variation term. -/
theorem total_loss_decomposition (transformer : Tensor4 → Tensor4)
    (extractor : Tensor4 → FeatureBundle) (style_targets : LayerMap) (w : Weights)
    (ns nc : ℕ) (image : Tensor4)
    (hsw : 0 < w.style_weight) (hcw : 0 < w.content_weight) (htw : 0 < w.tv_weight)
    (sl0 cl0 : ℚ)
    (hsc : style_content_loss style_targets (extractor image) (extractor (transformer image))
      = some (sl0, cl0))
    (s c v tot : ℚ)
    (h : train_step_losses transformer extractor style_targets w ns nc image
      = some (s, c, v, tot)) :
    tot = sl0 * (w.style_weight / (ns : ℚ)) + cl0 * (w.content_weight / (nc : ℚ))
        + w.tv_weight * total_variation_loss image := by
  unfold train_step_losses at h
  rw [hsc] at h
  simp only [Option.some.injEq, Prod.mk.injEq] at h
  obtain ⟨-, -, -, htot⟩ := h
  rw [← htot]

/-- Identity transformer used in the step-loss witnesses. -/
def witTransformer : Tensor4 → Tensor4 := fun t => t

/-- Feature extractor stub exposing the image itself as its one style layer and
one content layer. -/
def witExtractor : Tensor4 → FeatureBundle := fun t => ⟨[("a", t)], [("c", t)]⟩

/-- Style targets for the step-loss witnesses. -/
def witTargets : LayerMap := [("a", zeroT)]

/-- Positive weight configuration for the step-loss witnesses. -/
def witWeights : Weights := ⟨2, 3, 5⟩

theorem train_step_losses_witness_eval :
    train_step_losses witTransformer witExtractor witTargets witWeights 5 1 oneT
      = some (1 * ((2 : ℚ) / 5), 0 * ((3 : ℚ) / 1), 0,
          1 * ((2 : ℚ) / 5) + 0 * ((3 : ℚ) / 1) + 0) := by
  simp [train_step_losses, style_content_loss, style_loss_of, content_loss_of, styleTermList,
    contentTermList, witTransformer, witExtractor, witTargets, witWeights, List.lookup, add_n,
    reduce_mean, sum4, sumR, square, tsub, numElements, total_variation_loss, high_pass_x_y,
    oneT, zeroT, List.range_succ]

/-- Witness for C2: at a concrete step the total-variation term evaluates on the
raw 1x1x1x1 input image, whose delta tensors are empty, to `tv_weight * (0 + 0)`. -/
theorem tv_term_on_raw_image_witness :
    (0 : ℚ) = witWeights.tv_weight *
      (sum4 ⟨oneT.b, oneT.h, oneT.w - 1, oneT.c,
          fun i j k m => (oneT.pix i j (k + 1) m - oneT.pix i j k m) ^ 2⟩ /
        ((oneT.b * oneT.h * (oneT.w - 1) * oneT.c : ℕ) : ℚ) +
       sum4 ⟨oneT.b, oneT.h - 1, oneT.w, oneT.c,
          fun i j k m => (oneT.pix i (j + 1) k m - oneT.pix i j k m) ^ 2⟩ /
        ((oneT.b * (oneT.h - 1) * oneT.w * oneT.c : ℕ) : ℚ)) :=
  tv_term_on_raw_image witTransformer witExtractor witTargets witWeights 5 1 oneT
    (1 * ((2 : ℚ) / 5)) (0 * ((3 : ℚ) / 1)) 0
    (1 * ((2 : ℚ) / 5) + 0 * ((3 : ℚ) / 1) + 0) train_step_losses_witness_eval

/-- Witness for C3: at a concrete step with positive weights the total loss
equals the weighted sum of the unweighted component losses. -/
theorem total_loss_decomposition_witness :
    ((0 : ℚ) < witWeights.style_weight ∧ (0 : ℚ) < witWeights.content_weight ∧
        (0 : ℚ) < witWeights.tv_weight) ∧
      1 * ((2 : ℚ) / 5) + 0 * ((3 : ℚ) / 1) + 0
        = 1 * (witWeights.style_weight / ((5 : ℕ) : ℚ))
          + 0 * (witWeights.content_weight / ((1 : ℕ) : ℚ))
          + witWeights.tv_weight * total_variation_loss oneT :=
  ⟨⟨by norm_num [witWeights], by norm_num [witWeights], by norm_num [witWeights]⟩,
   total_loss_decomposition witTransformer witExtractor witTargets witWeights 5 1 oneT
     (by norm_num [witWeights]) (by norm_num [witWeights]) (by norm_num [witWeights]) 1 0
     (by simp [style_content_loss, style_loss_of, content_loss_of, styleTermList,
       contentTermList, witTransformer, witExtractor, witTargets, List.lookup, add_n,
       reduce_mean, sum4, sumR, square, tsub, numElements, oneT, zeroT, List.range_succ])
     (1 * ((2 : ℚ) / 5)) (0 * ((3 : ℚ) / 1)) 0
     (1 * ((2 : ℚ) / 5) + 0 * ((3 : ℚ) / 1) + 0) train_step_losses_witness_eval⟩

section EmptyDeltaLemmas

theorem sumR_of_zero_range (f : ℕ → ℚ) : sumR 0 f = 0 := rfl

theorem sum4_of_w_zero (t : Tensor4) (hw : t.w = 0) : sum4 t = 0 := by
  unfold sum4
  rw [hw]
  simp [sumR]

theorem sum4_of_h_zero (t : Tensor4) (hh : t.h = 0) : sum4 t = 0 := by
  unfold sum4
  rw [hh]
  simp [sumR]

end EmptyDeltaLemmas

/-- Claim C10: for an image with height and width at least 2 (and at least one
batch element and one channel), both delta tensors inside
`total_variation_loss` have a positive element count, so each mean is a
division by a nonzero count; when width is 1 the horizontal delta tensor is
empty and its mean is the division 0/0, and likewise for height 1 and the
vertical delta tensor. -/
theorem tv_mean_element_counts (image : Tensor4) (hb : 1 ≤ image.b) (hc : 1 ≤ image.c) :
    (2 ≤ image.h → 2 ≤ image.w →
      0 < numElements (square (high_pass_x_y image).1) ∧
      0 < numElements (square (high_pass_x_y image).2)) ∧
    (image.w = 1 →
      sum4 (square (high_pass_x_y image).1) = 0 ∧
      (numElements (square (high_pass_x_y image).1) : ℚ) = 0) ∧
    (image.h = 1 →
      sum4 (square (high_pass_x_y image).2) = 0 ∧
      (numElements (square (high_pass_x_y image).2) : ℚ) = 0) := by
  refine ⟨fun hh hw => ⟨?_, ?_⟩, fun hw => ⟨?_, ?_⟩, fun hh => ⟨?_, ?_⟩⟩
  · show 0 < image.b * image.h * (image.w - 1) * image.c
    exact Nat.mul_pos (Nat.mul_pos (Nat.mul_pos hb (by omega)) (by omega)) hc
  · show 0 < image.b * (image.h - 1) * image.w * image.c
    exact Nat.mul_pos (Nat.mul_pos (Nat.mul_pos hb (by omega)) (by omega)) hc
  · exact sum4_of_w_zero _ (by simp [square, high_pass_x_y, hw])
  · show ((image.b * image.h * (image.w - 1) * image.c : ℕ) : ℚ) = 0
    rw [hw]
    norm_num
  · exact sum4_of_h_zero _ (by simp [square, high_pass_x_y, hh])
  · show ((image.b * (image.h - 1) * image.w * image.c : ℕ) : ℚ) = 0
    rw [hh]
    norm_num

/-- Single-pixel-wide test image used by the C10 witness. -/
def thinImage : Tensor4 := ⟨1, 1, 1, 3, fun _ _ _ _ => 7⟩

/-- Witness for C10 at a concrete 1x1x1x3 image: both delta tensors are empty,
so both means are the division 0/0. -/
theorem tv_mean_element_counts_witness :
    (2 ≤ thinImage.h → 2 ≤ thinImage.w →
      0 < numElements (square (high_pass_x_y thinImage).1) ∧
      0 < numElements (square (high_pass_x_y thinImage).2)) ∧
    (thinImage.w = 1 →
      sum4 (square (high_pass_x_y thinImage).1) = 0 ∧
      (numElements (square (high_pass_x_y thinImage).1) : ℚ) = 0) ∧
    (thinImage.h = 1 →
      sum4 (square (high_pass_x_y thinImage).2) = 0 ∧
      (numElements (square (high_pass_x_y thinImage).2) : ℚ) = 0) :=
  tv_mean_element_counts thinImage (by decide) (by decide)

/-! Parameter variables and the gradient-update step (train.py lines 142-145).
Variables live in a name-keyed store; `tape.gradient(loss, vars)` becomes an
opaque per-variable gradient evaluated on the transformer's trainable variables
only; `optimizer.apply_gradients(zip(gradients, vars))` writes each updated
value back under its variable's name with an opaque update rule. -/

/-- A store of named scalar variables. -/
abbrev VarStore := List (String × ℚ)

/-- Write one variable's value, replacing in place when the name exists. -/
def setVar : VarStore → String → ℚ → VarStore
  | [], n, v => [(n, v)]
  | (m, x) :: rest, n, v => if m = n then (n, v) :: rest else (m, x) :: setVar rest n v

/-- Read one variable's value (0 for an absent name). -/
def getVar (vs : VarStore) (n : String) : ℚ :=
  (vs.lookup n).getD 0

/-- The variable name sets of the two networks. -/
structure ModelVars where
  transformer_trainable_variables : List String
  extractor_variables : List String

/-- Embedding of `optimizer.apply_gradients(zip(gradients, variables))`: each
(variable name, gradient) pair updates that variable with the optimizer's
update rule. -/
def apply_gradients (update : ℚ → ℚ → ℚ) : List (String × ℚ) → VarStore → VarStore
  | [], vs => vs
  | (n, g) :: rest, vs => apply_gradients update rest (setVar vs n (update g (getVar vs n)))

/-- Embedding of the backward pass of `train_step`:
`gradients = tape.gradient(loss, transformer.trainable_variables)` zipped with
those same variables and applied by the optimizer. -/
def train_step_update (m : ModelVars) (gradient : String → ℚ) (update : ℚ → ℚ → ℚ)
    (vs : VarStore) : VarStore :=
  apply_gradients update (m.transformer_trainable_variables.map fun n => (n, gradient n)) vs

section UpdateLemmas

theorem getVar_setVar_ne (vs : VarStore) (k n : String) (v : ℚ) (hne : k ≠ n) :
    getVar (setVar vs k v) n = getVar vs n := by
  induction vs with
  | nil =>
      have hbeq : (n == k) = false := beq_eq_false_iff_ne.mpr (Ne.symm hne)
      simp [setVar, getVar, List.lookup, hbeq]
  | cons p rest ih =>
      obtain ⟨a, b⟩ := p
      by_cases hak : a = k
      · rw [hak]
        have hbeq : (n == k) = false := beq_eq_false_iff_ne.mpr (Ne.symm hne)
        simp [setVar, getVar, List.lookup, hbeq]
      · simp only [setVar, if_neg hak]
        by_cases hna : n = a
        · subst hna
          simp [getVar, List.lookup]
        · have hbeq : (n == a) = false := beq_eq_false_iff_ne.mpr hna
          simp only [getVar, List.lookup, hbeq]
          simpa [getVar] using ih

theorem apply_gradients_getVar_notMem (update : ℚ → ℚ → ℚ) (prs : List (String × ℚ))
    (vs : VarStore) (n : String) (hn : n ∉ prs.map Prod.fst) :
    getVar (apply_gradients update prs vs) n = getVar vs n := by
  induction prs generalizing vs with
  | nil => rfl
  | cons p rest ih =>
      obtain ⟨k, g⟩ := p
      have hkn : k ≠ n := by
        intro hEq
        exact hn (by simp [hEq])
      have hrest : n ∉ rest.map Prod.fst := by
        intro hmem
        exact hn (by simp [hmem])
      simp only [apply_gradients]
      rw [ih _ hrest, getVar_setVar_ne vs k n _ hkn]

theorem map_grad_congr (l : List String) (g1 g2 : String → ℚ)
    (h : ∀ k ∈ l, g1 k = g2 k) :
    (l.map fun n => (n, g1 n)) = l.map fun n => (n, g2 n) := by
  induction l with
  | nil => rfl
  | cons a rest ih =>
      simp only [List.map_cons, List.cons.injEq]
      exact ⟨by rw [h a (List.mem_cons_self _ _)],
        ih fun k hk => h k (List.mem_cons_of_mem _ hk)⟩

end UpdateLemmas

/-- Claim C7: the training step's optimizer update touches only the
transformer's trainable variables: every extractor variable (disjoint from the
transformer's) keeps its value, and the step depends on the gradient only
through its values on the transformer's trainable variables. -/
theorem extractor_frame (m : ModelVars) (gradient : String → ℚ) (update : ℚ → ℚ → ℚ)
    (vs : VarStore) (n : String) (hn : n ∈ m.extractor_variables)
    (hdisj : n ∉ m.transformer_trainable_variables) :
    getVar (train_step_update m gradient update vs) n = getVar vs n ∧
    ∀ g2 : String → ℚ, (∀ k ∈ m.transformer_trainable_variables, gradient k = g2 k) →
      train_step_update m gradient update vs = train_step_update m g2 update vs := by
  constructor
  · refine apply_gradients_getVar_notMem update _ vs n ?_
    intro hmem
    refine hdisj ?_
    rcases List.mem_map.mp hmem with ⟨k, hk, hkn⟩
    rcases List.mem_map.mp hk with ⟨a, ha, hak⟩
    rw [← hak] at hkn
    simpa [← hkn] using ha
  · intro g2 hg
    unfold train_step_update
    rw [map_grad_congr m.transformer_trainable_variables gradient g2 hg]

/-- Variable names of the two networks for the C7 witness. -/
def witModelVars : ModelVars := ⟨["t1"], ["e1"]⟩

/-- Variable store for the C7 witness. -/
def witStore : VarStore := [("t1", 1), ("e1", 2)]

/-- Witness for C7: in a concrete step the extractor variable e1 keeps its
value while the transformer variable is the only one updated. -/
theorem extractor_frame_witness :
    ("e1" ∈ witModelVars.extractor_variables ∧
        "e1" ∉ witModelVars.transformer_trainable_variables) ∧
      getVar (train_step_update witModelVars (fun _ => 1) (fun g v => v - g) witStore) "e1"
        = getVar witStore "e1" :=
  ⟨⟨by decide, by decide⟩,
   (extractor_frame witModelVars (fun _ => 1) (fun g v => v - g) witStore "e1" (by decide)
     (by decide)).1⟩

/-! Running metrics and the training-loop cadence (train.py lines 115-118,
148-151, 166-216). A `tf.keras.metrics.Mean` is a (total, count) accumulator;
each loop iteration runs one step (which accumulates the four losses), then
increments the step counter, reports and checkpoints when the incremented step
is divisible by 500, and resets all four accumulators unconditionally. The
per-step loss values are abstracted as a given list, one entry per batch. -/

/-- A `tf.keras.metrics.Mean` accumulator. -/
structure Metric where
  total : ℚ
  count : ℕ
  deriving DecidableEq

/-- Recording one value into a mean accumulator. -/
def Metric.record (m : Metric) (v : ℚ) : Metric :=
  ⟨m.total + v, m.count + 1⟩

/-- The accumulated mean, read at report time. -/
def Metric.result (m : Metric) : ℚ :=
  m.total / (m.count : ℚ)

/-- A fresh accumulator, as left by `reset_states`. -/
def emptyMetric : Metric := ⟨0, 0⟩

/-- The four per-step loss values logged by `train_step`. -/
structure StepLosses where
  loss : ℚ
  style : ℚ
  content : ℚ
  tv : ℚ
  deriving DecidableEq

/-- The four running metrics of the loop. -/
structure Metrics4 where
  loss : Metric
  style : Metric
  content : Metric
  tv : Metric
  deriving DecidableEq

/-- All four accumulators fresh. -/
def emptyMetrics : Metrics4 :=
  ⟨emptyMetric, emptyMetric, emptyMetric, emptyMetric⟩

/-- The metric accumulation at the end of `train_step` (lines 148-151). -/
def Metrics4.record (m : Metrics4) (v : StepLosses) : Metrics4 :=
  ⟨m.loss.record v.loss, m.style.record v.style, m.content.record v.content,
   m.tv.record v.tv⟩

/-- One emission of the reporter (scalar records, image records, console line),
together with the metric counts at emission time. -/
structure Emission where
  step : ℕ
  lossCount : ℕ
  styleCount : ℕ
  contentCount : ℕ
  tvCount : ℕ
  loss : ℚ
  style : ℚ
  content : ℚ
  tv : ℚ
  deriving DecidableEq

/-- The loop state: the checkpoint step counter and the four metrics. -/
structure LoopState where
  step : ℕ
  metrics : Metrics4
  deriving DecidableEq

/-- The result of one loop iteration: next state, the emission if one occurred,
and the checkpoint save (tagged with its step) if one occurred. -/
structure IterResult where
  state : LoopState
  emitted : Option Emission
  saved : Option ℕ
  deriving DecidableEq

/-- One iteration of the training loop (lines 167-216): accumulate the step's
losses, increment the step counter, emit and save when the new step is
divisible by 500, then reset all four metrics unconditionally. -/
def loopIter (s : LoopState) (v : StepLosses) : IterResult :=
  let m := s.metrics.record v
  let step := s.step + 1
  if step % 500 = 0 then
    ⟨⟨step, emptyMetrics⟩,
     some ⟨step, m.loss.count, m.style.count, m.content.count, m.tv.count,
       m.loss.result, m.style.result, m.content.result, m.tv.result⟩,
     some step⟩
  else
    ⟨⟨step, emptyMetrics⟩, none, none⟩

/-- Run the loop over a list of per-step losses, collecting all emissions and
checkpoint saves in order. -/
def runLoop (s : LoopState) : List StepLosses → LoopState × List Emission × List ℕ
  | [] => (s, [], [])
  | v :: vs =>
    let r := loopIter s v
    let rest := runLoop r.state vs
    (rest.1, r.emitted.toList ++ rest.2.1, r.saved.toList ++ rest.2.2)

section LoopLemmas

theorem record_empty (v : StepLosses) :
    emptyMetrics.record v = ⟨⟨v.loss, 1⟩, ⟨v.style, 1⟩, ⟨v.content, 1⟩, ⟨v.tv, 1⟩⟩ := by
  simp [Metrics4.record, Metric.record, emptyMetrics, emptyMetric]

theorem result_of_one (x : ℚ) : (Metric.mk x 1).result = x := by
  simp [Metric.result]

theorem runLoop_from_empty (st : ℕ) (losses : List StepLosses) :
    runLoop ⟨st, emptyMetrics⟩ losses =
      ((⟨st + losses.length, emptyMetrics⟩ : LoopState),
       (losses.enumFrom (st + 1)).filterMap fun p =>
         if p.1 % 500 = 0 then
           some ⟨p.1, 1, 1, 1, 1, p.2.loss, p.2.style, p.2.content, p.2.tv⟩
         else none,
       (losses.enumFrom (st + 1)).filterMap fun p =>
         if p.1 % 500 = 0 then some p.1 else none) := by
  induction losses generalizing st with
  | nil => simp [runLoop, List.enumFrom]
  | cons v vs ih =>
      have hlen : st + 1 + vs.length = st + (vs.length + 1) := by omega
      by_cases hstep : (st + 1) % 500 = 0 <;>
        simp [runLoop, loopIter, hstep, List.enumFrom, ih (st + 1), record_empty,
          result_of_one, hlen]

theorem mem_enumFrom_char (losses : List StepLosses) (n : ℕ) (p : ℕ × StepLosses)
    (hp : p ∈ losses.enumFrom n) :
    ∃ i, ∃ hi : i < losses.length, p.1 = n + i ∧ p.2 = losses.get ⟨i, hi⟩ := by
  induction losses generalizing n with
  | nil => cases hp
  | cons v vs ih =>
      rcases List.mem_cons.mp hp with h | h
      · exact ⟨0, by simp, by simp [h], by simp [h]⟩
      · rcases ih (n + 1) h with ⟨i, hi, h1, h2⟩
        refine ⟨i + 1, by simpa using Nat.succ_lt_succ hi, by omega, ?_⟩
        simpa using h2

end LoopLemmas

/-- Claim C6: every iteration of the training loop resets the four metric
accumulators regardless of whether emission occurred, so every emission reports
metrics of count 1 whose values are exactly the four losses of the single most
recent step, not a 500-step average. -/
theorem metrics_reset_every_iteration (st : ℕ) (losses : List StepLosses) :
    (∀ s v, (loopIter s v).state.metrics = emptyMetrics) ∧
    ∀ e ∈ (runLoop ⟨st, emptyMetrics⟩ losses).2.1,
      e.lossCount = 1 ∧ e.styleCount = 1 ∧ e.contentCount = 1 ∧ e.tvCount = 1 ∧
      ∃ i, ∃ hi : i < losses.length,
        e.step = st + 1 + i ∧
        e.loss = (losses.get ⟨i, hi⟩).loss ∧ e.style = (losses.get ⟨i, hi⟩).style ∧
        e.content = (losses.get ⟨i, hi⟩).content ∧ e.tv = (losses.get ⟨i, hi⟩).tv := by
  constructor
  · intro s v
    by_cases h : (s.step + 1) % 500 = 0 <;> simp [loopIter, h]
  · intro e he
    rw [runLoop_from_empty] at he
    rcases List.mem_filterMap.mp he with ⟨p, hp, hfp⟩
    by_cases hdiv : p.1 % 500 = 0
    · rw [if_pos hdiv] at hfp
      injection hfp with hfp
      rcases mem_enumFrom_char losses (st + 1) p hp with ⟨i, hi, h1, h2⟩
      subst hfp
      exact ⟨rfl, rfl, rfl, rfl, i, hi, by simpa using h1, by simp [h2], by simp [h2],
        by simp [h2], by simp [h2]⟩
    · rw [if_neg hdiv] at hfp
      cases hfp

/-- One-step loss list for the C6 witness. -/
def witLosses : List StepLosses := [⟨10, 20, 30, 40⟩]

/-- The single emission produced by the C6 witness run. -/
def witEmission : Emission := ⟨500, 1, 1, 1, 1, 10, 20, 30, 40⟩

/-- Witness for C6: starting at step 499 with fresh metrics, the iteration that
reaches step 500 emits metrics of count 1 equal to that very step's losses. -/
theorem metrics_reset_every_iteration_witness :
    witEmission.lossCount = 1 ∧ witEmission.styleCount = 1 ∧
      witEmission.contentCount = 1 ∧ witEmission.tvCount = 1 ∧
      ∃ i, ∃ hi : i < witLosses.length,
        witEmission.step = 499 + 1 + i ∧
        witEmission.loss = (witLosses.get ⟨i, hi⟩).loss ∧
        witEmission.style = (witLosses.get ⟨i, hi⟩).style ∧
        witEmission.content = (witLosses.get ⟨i, hi⟩).content ∧
        witEmission.tv = (witLosses.get ⟨i, hi⟩).tv :=
  (metrics_reset_every_iteration 499 witLosses).2 witEmission (by
    simp [runLoop, loopIter, witLosses, witEmission, Metrics4.record, Metric.record,
      Metric.result, emptyMetrics, emptyMetric])

/-- Claim C8: a training-loop iteration emits metrics and saves a checkpoint
exactly when the step counter after its increment is divisible by 500; on every
other iteration neither occurs. -/
theorem emission_iff_step_divisible (s : LoopState) (v : StepLosses) :
    ((loopIter s v).emitted.isSome ↔ (s.step + 1) % 500 = 0) ∧
    ((loopIter s v).saved.isSome ↔ (s.step + 1) % 500 = 0) := by
  by_cases h : (s.step + 1) % 500 = 0 <;> simp [loopIter, h]

end FastStyleTransfer
